import Mathlib

/-!
Shallow embedding of the it-law-observer web frontend logic
(apps/web/src: auth/jwt helpers, login route, api query building,
fuzzy select filter, dashboard pagination, tag utilities), with
theorems checking the specification's claims against it.

JavaScript strings are modelled as Lean `String`s, JSON numbers as
exact rationals, `null`/`undefined` as `Option`, and thrown-and-caught
exceptions as `Option` failure.
-/

/-- Characters treated as whitespace by `String.prototype.trim` (the common ones). -/
def jsWhitespace (c : Char) : Bool :=
  c = ' ' || c = '\t' || c = '\n' || c = '\r' || c = '\x0b' || c = '\x0c' || c = ' '

/-- JS `s.trim()` on the underlying character list. -/
def jsTrimList (l : List Char) : List Char :=
  ((l.dropWhile jsWhitespace).reverse.dropWhile jsWhitespace).reverse

/-- JS `s.trim()`. -/
def jsTrim (s : String) : String :=
  ⟨jsTrimList s.data⟩

/-- JS `s.toLowerCase()` (modelled characterwise; ASCII-accurate). -/
def lowerStr (s : String) : String :=
  ⟨s.data.map Char.toLower⟩

/-- JS `s.startsWith(p)`. -/
def strStarts (s p : String) : Bool :=
  p.data.isPrefixOf s.data

/-! ## apps/web/src/app/api/auth/login/route.ts -/

/-- `safeNextUrl` from the login route; `next : string | null`, with the
falsiness of the empty string made explicit. -/
def safeNextUrl (next : Option String) : String :=
  match next with
  | none => "/admin"
  | some n =>
    if n = "" then "/admin"
    else if !(strStarts n "/") then "/admin"
    else if strStarts n "//" then "/admin"
    else n

/-- The login POST handler computes `safeNextUrl(String(form?.get('next') || '') || null)`:
a missing or empty form field becomes `null`. -/
def formNextToArg (v : Option String) : Option String :=
  match v with
  | none => none
  | some s => if s = "" then none else some s

/-- The post-login redirect path produced in the login POST handler. -/
def loginNextPath (v : Option String) : String :=
  safeNextUrl (formNextToArg v)

/-! ## apps/web/src/lib/api.ts -/

/-- The `ProposalsQuery` shape from `types.ts`; `limit`/`offset` are JS numbers,
used here only at integral values. -/
structure ProposalsQuery where
  it_relevant : Option Bool := none
  topic : Option String := none
  q : Option String := none
  lim : Option Int := none
  offset : Option Int := none

/-- `if (query?.field) params.append(key, query.field)` for a string field:
appended exactly when present and truthy (non-empty). -/
def strParam (key : String) (v : Option String) : List (String × String) :=
  match v with
  | some t => if t = "" then [] else [(key, t)]
  | none => []

/-- `if (query?.field) params.append(key, query.field.toString())` for a numeric
field: appended exactly when present and truthy (non-zero). -/
def numParam (key : String) (v : Option Int) : List (String × String) :=
  match v with
  | some n => if n = 0 then [] else [(key, toString n)]
  | none => []

/-- The `URLSearchParams` built by `getProposals`, as an ordered key/value list.
`it_relevant=true` is always set first, unconditionally. -/
def getProposalsParams (query : Option ProposalsQuery) : List (String × String) :=
  [("it_relevant", "true")]
    ++ strParam "topic" (query.bind (·.topic))
    ++ strParam "q" (query.bind (·.q))
    ++ numParam "limit" (query.bind (·.lim))
    ++ numParam "offset" (query.bind (·.offset))

/-! ## SearchableSelect fuzzy filtering -/

/-- The greedy two-pointer loop of `fuzzyMatch`: advance through the text,
consuming a search character on each match; succeed when the search is
exhausted. -/
def fuzzyCore : List Char → List Char → Bool
  | [], _ => true
  | _ :: _, [] => false
  | a :: as, c :: ts => if a = c then fuzzyCore as ts else fuzzyCore (a :: as) ts

/-- `fuzzyMatch(search, text)`: blank search always matches, otherwise greedy
subsequence scan over the lowercased strings. -/
def fuzzyMatch (search text : String) : Bool :=
  if jsTrim search = "" then true
  else fuzzyCore (lowerStr search).data (lowerStr text).data

/-- The index-collecting loop of `findMatchingIndices`. -/
def fmGo : List Char → List Char → Nat → List Nat
  | [], _, _ => []
  | _ :: _, [], _ => []
  | a :: as, c :: ts, i =>
    if a = c then i :: fmGo as ts (i + 1) else fmGo (a :: as) ts (i + 1)

/-- `findMatchingIndices(search, text)`: positions in the text matched by the
greedy scan; blank search yields no indices. -/
def findMatchingIndices (search text : String) : List Nat :=
  if jsTrim search = "" then []
  else fmGo (lowerStr search).data (lowerStr text).data 0

/-! ## JSON values and the proposal data model -/

/-- JSON values; numbers are modelled as exact rationals. -/
inductive Json where
  | null
  | bool (b : Bool)
  | num (q : ℚ)
  | str (s : String)
  | arr (elems : List Json)
  | obj (fields : List (String × Json))

/-- `ProposalLabel` from `types.ts`, restricted to the field the tag logic reads. -/
structure ProposalLabel where
  it_topics : List String

/-- The `policy` sub-object of `ProposalWithLabel`: the analysis record. -/
structure PolicyInfo where
  analysis : Json

/-- `ProposalWithLabel` from `types.ts`, restricted to the fields the tag
aggregation reads. -/
structure ProposalWithLabel where
  label : Option ProposalLabel
  policy : Option PolicyInfo

/-! ## apps/web/src/components/Dashboard.tsx -/

/-- The result of JS `Number(...)`: NaN, an infinity, or a finite value
(modelled as an exact rational). -/
inductive JsNum where
  | nan
  | posInf
  | negInf
  | val (q : ℚ)
deriving DecidableEq

def isHexDigitChar (c : Char) : Bool :=
  c.isDigit || ('a' ≤ c && c ≤ 'f') || ('A' ≤ c && c ≤ 'F')

def isOctDigitChar (c : Char) : Bool :=
  '0' ≤ c && c ≤ '7'

def isBinDigitChar (c : Char) : Bool :=
  c = '0' || c = '1'

def hexVal (c : Char) : Nat :=
  if c.isDigit then c.toNat - 48
  else if 'a' ≤ c && c ≤ 'f' then c.toNat - 87
  else if 'A' ≤ c && c ≤ 'F' then c.toNat - 55
  else 0

/-- Digit-string to number in a given base. -/
def natOfDigitsBase (base : Nat) (l : List Char) : Nat :=
  l.foldl (fun a c => a * base + hexVal c) 0

/-- The optional `ExponentPart` of a decimal literal; must consume the rest. -/
def parseExponentPart (l : List Char) : Option Int :=
  match l with
  | [] => some 0
  | c :: rest =>
    if c = 'e' || c = 'E' then
      match rest with
      | '+' :: ds =>
        if !ds.isEmpty && ds.all Char.isDigit then some (natOfDigitsBase 10 ds) else none
      | '-' :: ds =>
        if !ds.isEmpty && ds.all Char.isDigit then some (-(natOfDigitsBase 10 ds : Int)) else none
      | ds =>
        if !ds.isEmpty && ds.all Char.isDigit then some (natOfDigitsBase 10 ds) else none
    else none

/-- The exact value `(ip + fp / 10^fl) * 10^e` of a decimal literal with
integer part `ip`, fraction digits `fp` of length `fl` and exponent `e`,
written over `mkRat` so that it evaluates by kernel reduction. -/
def ratOfParts (ip fp : Nat) (fl : Nat) (e : Int) : ℚ :=
  let m : Int := ip * 10 ^ fl + fp
  let e' : Int := e - fl
  if 0 ≤ e' then ((m * 10 ^ e'.toNat : Int) : ℚ)
  else mkRat m (10 ^ (-e').toNat)

/-- `StrUnsignedDecimalLiteral` without the `Infinity` case: digits, optional
fraction, optional exponent; must consume the whole input. -/
def parseUnsignedDec (l : List Char) : Option ℚ :=
  let intd := l.takeWhile Char.isDigit
  let rest := l.dropWhile Char.isDigit
  match rest with
  | '.' :: rest2 =>
    let fracd := rest2.takeWhile Char.isDigit
    let rest3 := rest2.dropWhile Char.isDigit
    if intd.isEmpty && fracd.isEmpty then none
    else
      match parseExponentPart rest3 with
      | some e =>
        some (ratOfParts (natOfDigitsBase 10 intd) (natOfDigitsBase 10 fracd) fracd.length e)
      | none => none
  | _ =>
    if intd.isEmpty then none
    else
      match parseExponentPart rest with
      | some e => some (ratOfParts (natOfDigitsBase 10 intd) 0 0 e)
      | none => none

/-- The `StrDecimalLiteral` case of `Number(...)`: optional sign, then
`Infinity` or an unsigned decimal literal. -/
def jsDecimalBranch (l : List Char) : JsNum :=
  let stripped : Bool × List Char :=
    match l with
    | '+' :: r => (false, r)
    | '-' :: r => (true, r)
    | r => (false, r)
  let neg := stripped.1
  let body := stripped.2
  if body = "Infinity".data then (if neg then .negInf else .posInf)
  else
    match parseUnsignedDec body with
    | some q => .val (if neg then -q else q)
    | none => .nan

/-- JS `Number(s)` on a string: trim, empty is 0, then a non-decimal integer
literal (`0x`/`0o`/`0b`, no sign allowed) or a signed decimal literal;
anything else is NaN. -/
def jsStringToNumber (s : String) : JsNum :=
  let l := jsTrimList s.data
  if l.isEmpty then .val 0
  else
    match l with
    | '0' :: c :: ds =>
      if c = 'x' || c = 'X' then
        (if !ds.isEmpty && ds.all isHexDigitChar then .val (natOfDigitsBase 16 ds) else .nan)
      else if c = 'o' || c = 'O' then
        (if !ds.isEmpty && ds.all isOctDigitChar then .val (natOfDigitsBase 8 ds) else .nan)
      else if c = 'b' || c = 'B' then
        (if !ds.isEmpty && ds.all isBinDigitChar then .val (natOfDigitsBase 2 ds) else .nan)
      else jsDecimalBranch l
    | _ => jsDecimalBranch l

/-- `safePage` from `Dashboard.tsx`; the argument is `searchParams.get('page')`
(string or null), and `Number(null)` is 0. -/
def safePage (value : Option String) : Int :=
  let num : JsNum :=
    match value with
    | none => .val 0
    | some s => jsStringToNumber s
  match num with
  | .nan => 1
  | .posInf => 1
  | .negInf => 1
  | .val q => if q < 1 then 1 else if q > 5000 then 5000 else ⌊q⌋

/-- `PAGE_SIZE` from `Dashboard.tsx`. -/
def PAGE_SIZE : Int := 10

/-- The `ProposalsQuery` built by the dashboard's load effect:
`{ limit: PAGE_SIZE, offset: (page - 1) * PAGE_SIZE }` plus trimmed truthy
`topic`/`q` filters. -/
def dashboardQuery (page : Int) (topicFilter qFilter : String) : ProposalsQuery :=
  { lim := some PAGE_SIZE
    offset := some ((page - 1) * PAGE_SIZE)
    topic := if jsTrim topicFilter = "" then none else some (jsTrim topicFilter)
    q := if jsTrim qFilter = "" then none else some (jsTrim qFilter) }

/-- `canNextPage = !loading && serverProposals.length === PAGE_SIZE`. -/
def canNextPage (loading : Bool) (serverProposals : List ProposalWithLabel) : Bool :=
  !loading && serverProposals.length == 10

/-! ## apps/web/src/lib/tags.ts -/

/-- `normalizeTag = value.trim().toLowerCase()`. -/
def normalizeTag (value : String) : String :=
  lowerStr (jsTrim value)

/-- Property lookup on a parsed JSON object (`obj.key`); JS keeps the last of
duplicate keys from `JSON.parse`, so the last binding wins. -/
def jsGet (j : Json) (key : String) : Option Json :=
  match j with
  | .obj fields => (fields.reverse.find? (fun kv => kv.1 = key)).map (·.2)
  | _ => none

/-- The item loop of `extractAnalysisTags`: keep string items and the string
`tag` field of object items. -/
def collectTagItems : List Json → List String
  | [] => []
  | .str s :: rest => s :: collectTagItems rest
  | .obj fields :: rest =>
    (match jsGet (.obj fields) "tag" with
     | some (.str t) => t :: collectTagItems rest
     | _ => collectTagItems rest)
  | _ :: rest => collectTagItems rest

/-- `extractAnalysisTags(analysis)`: requires a non-null object with an array
`tags` field; collected tags are trimmed and blank ones dropped. -/
def extractAnalysisTags (analysis : Option Json) : List String :=
  match analysis with
  | some (.obj fields) =>
    (match jsGet (.obj fields) "tags" with
     | some (.arr items) => ((collectTagItems items).map jsTrim).filter (fun t => t ≠ "")
     | _ => [])
  | _ => []

/-- `extractPolicyTags(policy) = extractAnalysisTags(policy?.analysis)`. -/
def extractPolicyTags (policy : Option PolicyInfo) : List String :=
  extractAnalysisTags (policy.map (·.analysis))

/-- The loop of `mergeTags` with its `seen` set of normalized keys. -/
def mergeTagsGo (seen : List String) : List String → List String
  | [] => []
  | tag :: rest =>
    let cleaned := jsTrim tag
    if cleaned = "" then mergeTagsGo seen rest
    else
      let key := normalizeTag cleaned
      if key ∈ seen then mergeTagsGo seen rest
      else cleaned :: mergeTagsGo (key :: seen) rest

/-- `mergeTags(autoTags, llmTags)`. -/
def mergeTags (autoTags llmTags : List String) : List String :=
  mergeTagsGo [] (autoTags ++ llmTags)

/-- `getMergedProposalTags(proposal)`. -/
def getMergedProposalTags (proposal : ProposalWithLabel) : List String :=
  mergeTags ((proposal.label.map (·.it_topics)).getD []) (extractPolicyTags proposal.policy)

/-- `TagFrequency` (a `Map` from normalized key to `{label, count}`), as an
insertion-ordered association list. -/
abbrev TagFrequency := List (String × String × Nat)

/-- `Map.get` on the frequency map. -/
def freqGet (freq : TagFrequency) (key : String) : Option (String × Nat) :=
  match freq with
  | [] => none
  | (k, lab, c) :: rest => if k = key then some (lab, c) else freqGet rest key

/-- One `buildTagFrequency` update: bump an existing entry's count in place, or
append `{label, count: 1}` in insertion order. -/
def freqBump (freq : TagFrequency) (key label : String) : TagFrequency :=
  match freq with
  | [] => [(key, label, 1)]
  | (k, lab, c) :: rest =>
    if k = key then (k, lab, c + 1) :: rest
    else (k, lab, c) :: freqBump rest key label

/-- The inner loop of `buildTagFrequency` over one proposal's merged tags. -/
def addProposalTags (freq : TagFrequency) (tags : List String) : TagFrequency :=
  tags.foldl
    (fun f tag =>
      let key := normalizeTag tag
      if key = "" then f else freqBump f key (jsTrim tag))
    freq

/-- `buildTagFrequency(proposals)`. -/
def buildTagFrequency (proposals : List ProposalWithLabel) : TagFrequency :=
  proposals.foldl (fun f p => addProposalTags f (getMergedProposalTags p)) []

/-- `frequency.get(normalizeTag(tag))?.count ?? 0`. -/
def freqCount (freq : TagFrequency) (tag : String) : Nat :=
  ((freqGet freq (normalizeTag tag)).map (·.2)).getD 0

def ordToInt : Ordering → Int
  | .lt => -1
  | .eq => 0
  | .gt => 1

/-- Stand-in for `a.localeCompare(b, 'da-DK')`: a total comparison on strings
(code-point order models the locale collation). -/
def localeCmp (a b : String) : Int :=
  if a < b then -1 else if b < a then 1 else 0

/-- The `sortTagsByFrequency` comparator:
`bCount - aCount`, ties broken by `localeCompare`. -/
def tagComparator (freq : TagFrequency) (a b : String) : Int :=
  if freqCount freq b ≠ freqCount freq a then (freqCount freq b : Int) - freqCount freq a
  else localeCmp a b

/-- `sortTagsByFrequency(tags, frequency?)`: identity without a frequency map,
otherwise a comparator sort of a copy of the array. -/
def sortTagsByFrequency (tags : List String) (frequency : Option TagFrequency) : List String :=
  match frequency with
  | none => tags
  | some freq => List.insertionSort (fun a b => tagComparator freq a b ≤ 0) tags

/-- The `topTagsWithCounts` comparator on `{label, count}` entries:
`b.count - a.count`, ties broken by `localeCompare` on labels. -/
def infoComparator (a b : String × Nat) : Int :=
  if (b.2 : Int) - a.2 ≠ 0 then (b.2 : Int) - a.2 else localeCmp a.1 b.1

/-- `topTagsWithCounts(frequency, limit)`: the `{label, count}` values in
insertion order, comparator-sorted, truncated to `limit`, as pairs. -/
def topTagsWithCounts (freq : TagFrequency) (lim : Nat) : List (String × Nat) :=
  (List.insertionSort (fun a b => infoComparator a b ≤ 0)
      (freq.map (fun e => (e.2.1, e.2.2)))).take lim

/-- Keep the first occurrence of each key `f x`, in order: the reference
formulation of "order of first occurrence, first-seen spelling". -/
def firstDedupBy (f : String → String) : List String → List String
  | [] => []
  | x :: xs => x :: firstDedupBy f (xs.filter (fun y => f y ≠ f x))
termination_by l => l.length
decreasing_by
  simp only [List.length_cons]
  exact Nat.lt_succ_of_le (List.length_filter_le _ _)

/-- The count stored under a normalized key (0 when absent). -/
def keyCount (f : TagFrequency) (k : String) : Nat :=
  ((freqGet f k).map (·.2)).getD 0

/-! ## JWT decoding (lib/auth/jwt.ts): base64url, UTF-8, JSON.parse -/

/-- ASCII whitespace removed by the forgiving-base64 decode behind `atob`. -/
def isAsciiWs (c : Char) : Bool :=
  c = ' ' || c = '\t' || c = '\n' || c = '\x0c' || c = '\r'

/-- The value of one base64 alphabet character. -/
def b64Val (c : Char) : Option Nat :=
  if 'A' ≤ c && c ≤ 'Z' then some (c.toNat - 65)
  else if 'a' ≤ c && c ≤ 'z' then some (c.toNat - 71)
  else if '0' ≤ c && c ≤ '9' then some (c.toNat + 4)
  else if c = '+' then some 62
  else if c = '/' then some 63
  else none

/-- Decode base64 quartets (with a final group of 2 or 3 characters giving 1 or
2 bytes); any character outside the alphabet fails. -/
def b64Chunks : List Char → Option (List Nat)
  | [] => some []
  | [c1, c2] =>
    match b64Val c1, b64Val c2 with
    | some v1, some v2 => some [(v1 * 4 + v2 / 16) % 256]
    | _, _ => none
  | [c1, c2, c3] =>
    match b64Val c1, b64Val c2, b64Val c3 with
    | some v1, some v2, some v3 =>
      let n := v1 * 4096 + v2 * 64 + v3
      some [n / 1024 % 256, n / 4 % 256]
    | _, _, _ => none
  | c1 :: c2 :: c3 :: c4 :: rest =>
    match b64Val c1, b64Val c2, b64Val c3, b64Val c4 with
    | some v1, some v2, some v3, some v4 =>
      let n := v1 * 262144 + v2 * 4096 + v3 * 64 + v4
      match b64Chunks rest with
      | some bs => some ([n / 65536 % 256, n / 256 % 256, n % 256] ++ bs)
      | none => none
    | _, _, _, _ => none
  | [_] => none

/-- The forgiving-base64 decode implemented by `atob`: strip ASCII whitespace,
strip up to two trailing `=` when the length is a multiple of 4, reject a
length of 1 mod 4 and any character outside the alphabet. -/
def forgivingBase64 (l : List Char) : Option (List Nat) :=
  let d := l.filter (fun c => !(isAsciiWs c))
  let d :=
    if d.length % 4 = 0 then
      match d.reverse with
      | '=' :: '=' :: r => r.reverse
      | '=' :: r => r.reverse
      | _ => d
    else d
  if d.length % 4 = 1 then none
  else b64Chunks d

/-- Whether a byte is a UTF-8 continuation byte. -/
def isCont (b : Nat) : Bool :=
  128 ≤ b && b < 192

/-- Strict UTF-8 decoding (the behaviour of the `decodeURIComponent` percent
trick in `decodeJwtPayload`): reject stray continuation bytes, overlong forms,
surrogates, and values beyond U+10FFFF; any failure aborts. -/
def utf8Decode : List Nat → Option (List Char)
  | [] => some []
  | b1 :: rest =>
    if b1 < 128 then
      (utf8Decode rest).map (fun cs => Char.ofNat b1 :: cs)
    else if b1 < 194 then none
    else if b1 < 224 then
      match rest with
      | b2 :: r2 =>
        if isCont b2 then
          (utf8Decode r2).map (fun cs => Char.ofNat ((b1 - 192) * 64 + (b2 - 128)) :: cs)
        else none
      | [] => none
    else if b1 < 240 then
      match rest with
      | b2 :: b3 :: r3 =>
        if isCont b2 && isCont b3 then
          let cp := (b1 - 224) * 4096 + (b2 - 128) * 64 + (b3 - 128)
          if 2048 ≤ cp && !(55296 ≤ cp && cp ≤ 57343) then
            (utf8Decode r3).map (fun cs => Char.ofNat cp :: cs)
          else none
        else none
      | _ => none
    else if b1 < 245 then
      match rest with
      | b2 :: b3 :: b4 :: r4 =>
        if isCont b2 && isCont b3 && isCont b4 then
          let cp := (b1 - 240) * 262144 + (b2 - 128) * 4096 + (b3 - 128) * 64 + (b4 - 128)
          if 65536 ≤ cp && cp ≤ 1114111 then
            (utf8Decode r4).map (fun cs => Char.ofNat cp :: cs)
          else none
        else none
      | _ => none
    else none

/-- JSON insignificant whitespace. -/
def skipJsonWs (l : List Char) : List Char :=
  l.dropWhile (fun c => c = ' ' || c = '\t' || c = '\n' || c = '\r')

def hexQuadVal (a b c d : Char) : Option Nat :=
  if isHexDigitChar a && isHexDigitChar b && isHexDigitChar c && isHexDigitChar d then
    some (hexVal a * 4096 + hexVal b * 256 + hexVal c * 16 + hexVal d)
  else none

/-- The body of a JSON string after the opening quote, as UTF-16 code units
(escapes decoded, `\uXXXX` kept as a raw unit); returns the units and the
input past the closing quote. -/
def parseJsonStrUnits : List Char → Option (List Nat × List Char)
  | [] => none
  | '"' :: rest => some ([], rest)
  | '\\' :: rest =>
    match rest with
    | '"' :: r => (parseJsonStrUnits r).map (fun p => (34 :: p.1, p.2))
    | '\\' :: r => (parseJsonStrUnits r).map (fun p => (92 :: p.1, p.2))
    | '/' :: r => (parseJsonStrUnits r).map (fun p => (47 :: p.1, p.2))
    | 'b' :: r => (parseJsonStrUnits r).map (fun p => (8 :: p.1, p.2))
    | 'f' :: r => (parseJsonStrUnits r).map (fun p => (12 :: p.1, p.2))
    | 'n' :: r => (parseJsonStrUnits r).map (fun p => (10 :: p.1, p.2))
    | 'r' :: r => (parseJsonStrUnits r).map (fun p => (13 :: p.1, p.2))
    | 't' :: r => (parseJsonStrUnits r).map (fun p => (9 :: p.1, p.2))
    | 'u' :: a :: b :: c :: d :: r =>
      (match hexQuadVal a b c d with
       | some n => (parseJsonStrUnits r).map (fun p => (n :: p.1, p.2))
       | none => none)
    | _ => none
  | c :: rest =>
    if c.toNat < 32 then none
    else (parseJsonStrUnits rest).map (fun p => (c.toNat :: p.1, p.2))

/-- Reassemble UTF-16 code units into scalar values: surrogate pairs combine,
lone surrogates (representable in a JS string but not as a Unicode scalar)
become U+FFFD. -/
def utf16Assemble : List Nat → List Char
  | [] => []
  | u :: rest =>
    if 55296 ≤ u && u ≤ 56319 then
      match rest with
      | v :: r2 =>
        if 56320 ≤ v && v ≤ 57343 then
          Char.ofNat (65536 + (u - 55296) * 1024 + (v - 56320)) :: utf16Assemble r2
        else Char.ofNat 65533 :: utf16Assemble (v :: r2)
      | [] => [Char.ofNat 65533]
    else if 56320 ≤ u && u ≤ 57343 then Char.ofNat 65533 :: utf16Assemble rest
    else Char.ofNat u :: utf16Assemble rest

/-- The decoded body of a JSON string after the opening quote. -/
def parseJsonStrChars (l : List Char) : Option (List Char × List Char) :=
  (parseJsonStrUnits l).map (fun p => (utf16Assemble p.1, p.2))

/-- A JSON number token: `-?(0|[1-9][0-9]*)(\.[0-9]+)?([eE][+-]?[0-9]+)?`,
valued exactly. -/
def parseJsonNumber (l : List Char) : Option (ℚ × List Char) :=
  let stripped : Bool × List Char :=
    match l with
    | '-' :: r => (true, r)
    | r => (false, r)
  let neg := stripped.1
  let l1 := stripped.2
  let intd := l1.takeWhile Char.isDigit
  if intd.isEmpty then none
  else if intd.length > 1 && intd.head? == some '0' then none
  else
    let r2 := l1.dropWhile Char.isDigit
    let fracp : Option (List Char × List Char) :=
      match r2 with
      | '.' :: r3 =>
        let fracd := r3.takeWhile Char.isDigit
        if fracd.isEmpty then none else some (fracd, r3.dropWhile Char.isDigit)
      | _ => some ([], r2)
    match fracp with
    | none => none
    | some (fracd, r4) =>
      let expp : Option (Int × List Char) :=
        match r4 with
        | 'e' :: r5 =>
          (match r5 with
           | '+' :: r6 =>
             let ed := r6.takeWhile Char.isDigit
             if ed.isEmpty then none
             else some ((natOfDigitsBase 10 ed : Int), r6.dropWhile Char.isDigit)
           | '-' :: r6 =>
             let ed := r6.takeWhile Char.isDigit
             if ed.isEmpty then none
             else some (-(natOfDigitsBase 10 ed : Int), r6.dropWhile Char.isDigit)
           | r6 =>
             let ed := r6.takeWhile Char.isDigit
             if ed.isEmpty then none
             else some ((natOfDigitsBase 10 ed : Int), r6.dropWhile Char.isDigit))
        | 'E' :: r5 =>
          (match r5 with
           | '+' :: r6 =>
             let ed := r6.takeWhile Char.isDigit
             if ed.isEmpty then none
             else some ((natOfDigitsBase 10 ed : Int), r6.dropWhile Char.isDigit)
           | '-' :: r6 =>
             let ed := r6.takeWhile Char.isDigit
             if ed.isEmpty then none
             else some (-(natOfDigitsBase 10 ed : Int), r6.dropWhile Char.isDigit)
           | r6 =>
             let ed := r6.takeWhile Char.isDigit
             if ed.isEmpty then none
             else some ((natOfDigitsBase 10 ed : Int), r6.dropWhile Char.isDigit))
        | _ => some (0, r4)
      match expp with
      | none => none
      | some (e, r7) =>
        let q := ratOfParts (natOfDigitsBase 10 intd) (natOfDigitsBase 10 fracd) fracd.length e
        some (if neg then -q else q, r7)

mutual

/-- One JSON value at the head of the input (fuel-bounded recursive descent). -/
def parseJsonVal : Nat → List Char → Option (Json × List Char)
  | 0, _ => none
  | Nat.succ fuel, l =>
    match l with
    | 'n' :: 'u' :: 'l' :: 'l' :: rest => some (.null, rest)
    | 't' :: 'r' :: 'u' :: 'e' :: rest => some (.bool true, rest)
    | 'f' :: 'a' :: 'l' :: 's' :: 'e' :: rest => some (.bool false, rest)
    | '"' :: rest =>
      match parseJsonStrChars rest with
      | some (cs, r) => some (.str ⟨cs⟩, r)
      | none => none
    | '[' :: rest =>
      match skipJsonWs rest with
      | ']' :: r2 => some (.arr [], r2)
      | l2 =>
        match parseJsonArrLoop fuel l2 with
        | some (xs, r) => some (.arr xs, r)
        | none => none
    | '{' :: rest =>
      match skipJsonWs rest with
      | '}' :: r2 => some (.obj [], r2)
      | l2 =>
        match parseJsonObjLoop fuel l2 with
        | some (kvs, r) => some (.obj kvs, r)
        | none => none
    | _ =>
      match parseJsonNumber l with
      | some (q, r) => some (.num q, r)
      | none => none

/-- One or more comma-separated array elements followed by `]`. -/
def parseJsonArrLoop : Nat → List Char → Option (List Json × List Char)
  | 0, _ => none
  | Nat.succ fuel, l =>
    match parseJsonVal fuel l with
    | some (v, r) =>
      match skipJsonWs r with
      | ']' :: r2 => some ([v], r2)
      | ',' :: r2 =>
        match parseJsonArrLoop fuel (skipJsonWs r2) with
        | some (xs, r3) => some (v :: xs, r3)
        | none => none
      | _ => none
    | none => none

/-- One or more comma-separated `"key": value` members followed by `}`. -/
def parseJsonObjLoop : Nat → List Char → Option (List (String × Json) × List Char)
  | 0, _ => none
  | Nat.succ fuel, l =>
    match l with
    | '"' :: rest =>
      match parseJsonStrChars rest with
      | some (key, r) =>
        match skipJsonWs r with
        | ':' :: r2 =>
          match parseJsonVal fuel (skipJsonWs r2) with
          | some (v, r3) =>
            match skipJsonWs r3 with
            | '}' :: r4 => some ([(⟨key⟩, v)], r4)
            | ',' :: r4 =>
              match parseJsonObjLoop fuel (skipJsonWs r4) with
              | some (kvs, r5) => some ((⟨key⟩, v) :: kvs, r5)
              | none => none
            | _ => none
          | none => none
        | _ => none
      | none => none
    | _ => none

end

/-- `JSON.parse`: a single value with surrounding whitespace, consuming the
whole input; anything else throws (modelled as `none`). -/
def parseJson (s : String) : Option Json :=
  match parseJsonVal (2 * s.length + 2) (skipJsonWs s.data) with
  | some (v, rest) => if skipJsonWs rest = [] then some v else none
  | none => none

/-- JS `s.split(sep)` for a one-character separator, over the character list
(structural, so it evaluates by kernel reduction). -/
def splitOnChar (sep : Char) : List Char → List (List Char)
  | [] => [[]]
  | c :: rest =>
    if c = sep then [] :: splitOnChar sep rest
    else
      match splitOnChar sep rest with
      | h :: t => (c :: h) :: t
      | [] => [[c]]

/-- JS `s.split(sep)` on strings. -/
def jsSplit (s : String) (sep : Char) : List String :=
  (splitOnChar sep s.data).map (fun l => ⟨l⟩)

/-- The base64url-to-base64 normalization in `decodeJwtPayload`:
`-`→`+`, `_`→`/`, then `padEnd(Math.ceil(len / 4) * 4, '=')`. -/
def base64UrlNormalize (payload : String) : List Char :=
  let normalized := payload.data.map (fun c => if c = '-' then '+' else if c = '_' then '/' else c)
  normalized ++ List.replicate (((normalized.length + 3) / 4) * 4 - normalized.length) '='

/-- The body of `decodeJwtPayload`'s try block on the middle segment: base64
decode, UTF-8 decode, `JSON.parse`; any thrown error is caught to `none`. -/
def jwtSegmentToJson (payload : String) : Option Json :=
  match forgivingBase64 (base64UrlNormalize payload) with
  | none => none
  | some bytes =>
    match utf8Decode bytes with
    | none => none
    | some chars => parseJson ⟨chars⟩

/-- `decodeJwtPayload(token)`: exactly three `.`-separated parts, decode the
middle one, and keep the result only if it is a non-null value of object type
(JSON objects and arrays both pass the `typeof data === 'object' && data`
check). -/
def decodeJwtPayload (token : String) : Option Json :=
  if (jsSplit token '.').length ≠ 3 then none
  else
    match (jsSplit token '.')[1]? with
    | none => none
    | some payload =>
      match jwtSegmentToJson payload with
      | some (.obj fields) => some (.obj fields)
      | some (.arr elems) => some (.arr elems)
      | _ => none

/-- `getJwtExpSeconds(token)`: the `exp` claim when it is a number. -/
def getJwtExpSeconds (token : String) : Option ℚ :=
  match decodeJwtPayload token with
  | some payload =>
    (match jsGet payload "exp" with
     | some (.num q) => some q
     | _ => none)
  | none => none

/-- `getJwtEmail(token)`: the `email` claim when it is a string. -/
def getJwtEmail (token : String) : Option String :=
  match decodeJwtPayload token with
  | some payload =>
    (match jsGet payload "email" with
     | some (.str s) => some s
     | _ => none)
  | none => none

/-- The options object of `isJwtValidNow`. -/
structure JwtOpts where
  skewSeconds : Option Int := none

/-- `isJwtValidNow(token, opts?)`; `now = Math.floor(Date.now() / 1000)` is a
parameter, and the `!exp` truthiness check is explicit (`exp = 0` is falsy). -/
def isJwtValidNow (token : String) (opts : Option JwtOpts) (now : Int) : Bool :=
  match getJwtExpSeconds token with
  | none => false
  | some exp =>
    if exp = 0 then false
    else
      let skew := (opts.bind (·.skewSeconds)).getD 30
      decide (exp > ((now + skew : Int) : ℚ))

/-! ## isAdminAuthed (lib/auth/supabase.ts) -/

/-- `parseAdminEmails()` over the `ADMIN_EMAILS` environment value: `null`
unless the trimmed value is non-empty and yields at least one non-empty
trimmed, lowercased comma-separated entry. -/
def parseAdminEmails (raw0 : String) : Option (List String) :=
  let raw := jsTrim raw0
  if raw = "" then none
  else
    let set := ((jsSplit raw ',').map (fun s => lowerStr (jsTrim s))).filter (fun s => s ≠ "")
    if set = [] then none else some set

/-- `isAdminAuthed()`: the access-token cookie, the `ADMIN_EMAILS` environment
value and the current Unix time are parameters; an absent or empty cookie
value is falsy. -/
def isAdminAuthed (cookie : Option String) (adminEmailsEnv : String) (now : Int) : Bool :=
  match cookie with
  | none => false
  | some token =>
    if token = "" then false
    else if !(isJwtValidNow token none now) then false
    else
      match parseAdminEmails adminEmailsEnv with
      | none => true
      | some allow =>
        let email := lowerStr ((getJwtEmail token).getD "")
        if email = "" then false else decide (email ∈ allow)

theorem mem_strParam (a b k : String) (o : Option String) :
    (a, b) ∈ strParam k o ↔ (a = k ∧ o = some b ∧ b ≠ "") := by
  cases o with
  | none => simp [strParam]
  | some t =>
    by_cases h : t = "" <;>
      simp [strParam, h, and_comm, eq_comm] <;>
      aesop

theorem mem_numParam (a k : String) (b : String) (o : Option Int) :
    (a, b) ∈ numParam k o ↔ (a = k ∧ ∃ n, o = some n ∧ n ≠ 0 ∧ b = toString n) := by
  cases o with
  | none => simp [numParam]
  | some n =>
    by_cases h : n = 0 <;> simp [numParam, h] <;> aesop

theorem strStarts_iff (s p : String) :
    strStarts s p = true ↔ p.data.IsPrefix s.data := by
  simp [strStarts, List.isPrefixOf_iff_prefix]

/-- C3: `safeNextUrl` returns its argument unchanged exactly when it starts with
`/` but not `//`; in every other case (null, empty, not starting with `/`,
starting with `//`) it returns `/admin`; hence the post-login redirect path
always starts with `/` and never with `//`. -/
theorem C3_open_redirect_guard :
    (∀ n : String, safeNextUrl (some n) = n ↔
      (strStarts n "/" = true ∧ strStarts n "//" = false))
    ∧ (∀ v : Option String,
        (∀ s, v = some s → strStarts s "/" = false ∨ strStarts s "//" = true) →
        safeNextUrl v = "/admin")
    ∧ (∀ v : Option String,
        strStarts (loginNextPath v) "/" = true ∧ strStarts (loginNextPath v) "//" = false) := by
  have hempty : ∀ n : String, n = "" → strStarts n "/" = false := by
    intro n h; subst h; decide
  have hmain : ∀ n : String, safeNextUrl (some n) = n ↔
      (strStarts n "/" = true ∧ strStarts n "//" = false) := by
    intro n
    by_cases h0 : n = ""
    · subst h0
      constructor
      · intro h; exact absurd h (by decide)
      · rintro ⟨h1, -⟩; exact absurd h1 (by decide)
    · by_cases h1 : strStarts n "/" = true
      · by_cases h2 : strStarts n "//" = true
        · simp only [safeNextUrl, h0, if_false, h1, Bool.not_true, h2, if_true]
          constructor
          · intro h
            have : strStarts n "//" = true := h2
            rw [← h] at this
            exact absurd this (by decide)
          · rintro ⟨-, hc⟩; exact absurd hc (by decide)
        · simp only [Bool.not_eq_true] at h2
          simp [safeNextUrl, h0, h1, h2]
      · simp only [Bool.not_eq_true] at h1
        simp only [safeNextUrl, h0, if_false, h1, Bool.not_false, if_true]
        constructor
        · intro h
          have : strStarts n "/" = false := h1
          rw [← h] at this
          exact absurd this (by decide)
        · rintro ⟨hc, -⟩; exact absurd hc (by decide)
  refine ⟨hmain, ?_, ?_⟩
  · intro v hv
    match v with
    | none => rfl
    | some s =>
      by_cases h0 : s = ""
      · simp [safeNextUrl, h0]
      · rcases hv s rfl with h | h
        · simp [safeNextUrl, h0, h]
        · by_cases h1 : strStarts s "/" = true
          · simp [safeNextUrl, h0, h1, h]
          · simp only [Bool.not_eq_true] at h1
            simp [safeNextUrl, h0, h1]
  · intro v
    match v with
    | none => exact ⟨by decide, by decide⟩
    | some s =>
      by_cases h0 : s = ""
      · simp only [loginNextPath, formNextToArg, h0, if_true]
        exact ⟨by decide, by decide⟩
      · simp only [loginNextPath, formNextToArg, h0, if_false]
        by_cases h1 : strStarts s "/" = true
        · by_cases h2 : strStarts s "//" = true
          · simp only [safeNextUrl, h0, if_false, h1, Bool.not_true, h2, if_true]
            exact ⟨by decide, by decide⟩
          · simp only [Bool.not_eq_true] at h2
            simp only [safeNextUrl, h0, if_false, h1, Bool.not_true, h2, if_false]
            exact ⟨h1, h2⟩
        · simp only [Bool.not_eq_true] at h1
          simp only [safeNextUrl, h0, if_false, h1, Bool.not_false, if_true]
          exact ⟨by decide, by decide⟩

/-- Closed-form witness for C3: a protocol-relative url and an external url are
rewritten to `/admin`, while an internal path passes through. -/
theorem C3_open_redirect_guard_witness :
    safeNextUrl (some "//evil.example") = "/admin"
    ∧ safeNextUrl (some "https://evil.example") = "/admin"
    ∧ safeNextUrl (some "/admin/upload") = "/admin/upload" :=
  ⟨C3_open_redirect_guard.2.1 (some "//evil.example") (by intro s hs; cases hs; right; decide),
   C3_open_redirect_guard.2.1 (some "https://evil.example") (by intro s hs; cases hs; left; decide),
   (C3_open_redirect_guard.1 "/admin/upload").2 ⟨by decide, by decide⟩⟩

/-- C4: the query string built by `getProposals` always contains
`it_relevant=true`, and the `topic`, `q`, `limit`, `offset` parameters are
appended exactly when the corresponding field is set and truthy. -/
theorem C4_relevance_filter (query : Option ProposalsQuery) :
    ("it_relevant", "true") ∈ getProposalsParams query
    ∧ (∀ t, ("topic", t) ∈ getProposalsParams query ↔
        (query.bind (·.topic) = some t ∧ t ≠ ""))
    ∧ (∀ s, ("q", s) ∈ getProposalsParams query ↔
        (query.bind (·.q) = some s ∧ s ≠ ""))
    ∧ (∀ v, ("limit", v) ∈ getProposalsParams query ↔
        (∃ n, query.bind (·.lim) = some n ∧ n ≠ 0 ∧ v = toString n))
    ∧ (∀ v, ("offset", v) ∈ getProposalsParams query ↔
        (∃ n, query.bind (·.offset) = some n ∧ n ≠ 0 ∧ v = toString n)) := by
  refine ⟨?_, ?_, ?_, ?_, ?_⟩
  · simp [getProposalsParams]
  · intro t
    simp [getProposalsParams, mem_strParam, mem_numParam]
  · intro s
    simp [getProposalsParams, mem_strParam, mem_numParam]
  · intro v
    simp [getProposalsParams, mem_strParam, mem_numParam]
  · intro v
    simp [getProposalsParams, mem_strParam, mem_numParam]

theorem fuzzyCore_iff_sublist (s t : List Char) :
    fuzzyCore s t = true ↔ s.Sublist t := by
  induction t generalizing s with
  | nil =>
    cases s with
    | nil => simp [fuzzyCore]
    | cons a as => simp [fuzzyCore]
  | cons c ts ih =>
    cases s with
    | nil => simp [fuzzyCore, List.nil_sublist]
    | cons a as =>
      by_cases h : a = c
      · subst h
        rw [fuzzyCore, if_pos rfl, List.cons_sublist_cons]
        exact ih as
      · rw [fuzzyCore, if_neg h]
        constructor
        · intro hc
          exact List.Sublist.cons c ((ih (a :: as)).mp hc)
        · intro hs
          cases hs with
          | cons _ h' => exact (ih (a :: as)).mpr h'
          | cons₂ => exact absurd rfl h

theorem fmGo_bound (s t : List Char) (i : Nat) :
    ∀ x ∈ fmGo s t i, i ≤ x := by
  induction t generalizing s i with
  | nil =>
    cases s with
    | nil => simp [fmGo]
    | cons a as => simp [fmGo]
  | cons c ts ih =>
    cases s with
    | nil => simp [fmGo]
    | cons a as =>
      by_cases h : a = c
      · rw [fmGo, if_pos h]
        intro x hx
        rcases List.mem_cons.mp hx with hx | hx
        · omega
        · have := ih as (i + 1) x hx; omega
      · rw [fmGo, if_neg h]
        intro x hx
        have := ih (a :: as) (i + 1) x hx; omega

theorem fmGo_pairwise (s t : List Char) (i : Nat) :
    (fmGo s t i).Pairwise (· < ·) := by
  induction t generalizing s i with
  | nil =>
    cases s with
    | nil => simp [fmGo]
    | cons a as => simp [fmGo]
  | cons c ts ih =>
    cases s with
    | nil => simp [fmGo]
    | cons a as =>
      by_cases h : a = c
      · rw [fmGo, if_pos h]
        refine List.pairwise_cons.mpr ⟨?_, ih as (i + 1)⟩
        intro x hx
        have := fmGo_bound as ts (i + 1) x hx; omega
      · rw [fmGo, if_neg h]
        exact ih (a :: as) (i + 1)

theorem fmGo_length_iff (s t : List Char) (i : Nat) :
    (fmGo s t i).length = s.length ↔ fuzzyCore s t = true := by
  induction t generalizing s i with
  | nil =>
    cases s with
    | nil => simp [fmGo, fuzzyCore]
    | cons a as => simp [fmGo, fuzzyCore]
  | cons c ts ih =>
    cases s with
    | nil => simp [fmGo, fuzzyCore]
    | cons a as =>
      by_cases h : a = c
      · rw [fmGo, if_pos h, fuzzyCore, if_pos h]
        simpa using ih as (i + 1)
      · rw [fmGo, if_neg h, fuzzyCore, if_neg h]
        exact ih (a :: as) (i + 1)

theorem dropWhile_eq_nil_iff_all (p : Char → Bool) (l : List Char) :
    l.dropWhile p = [] ↔ l.all p = true := by
  induction l with
  | nil => simp
  | cons a as ih =>
    by_cases h : p a = true
    · simp [List.dropWhile_cons, h, ih]
    · simp only [Bool.not_eq_true] at h
      simp [List.dropWhile_cons, h]

theorem jsTrim_eq_empty_iff (s : String) :
    jsTrim s = "" ↔ s.data.all jsWhitespace = true := by
  rw [String.ext_iff]
  show jsTrimList s.data = "".data ↔ _
  have hnil : ("" : String).data = [] := rfl
  rw [hnil, jsTrimList]
  rw [List.reverse_eq_nil_iff, dropWhile_eq_nil_iff_all, List.all_reverse,
    ← List.takeWhile_append_dropWhile (p := jsWhitespace) (l := s.data), List.all_append]
  simp only [List.takeWhile_append_dropWhile]
  constructor
  · intro h
    rw [Bool.and_eq_true]
    refine ⟨?_, h⟩
    rw [List.all_eq_true]
    intro x hx
    exact List.mem_takeWhile_imp hx
  · intro h
    rw [Bool.and_eq_true] at h
    exact h.2

/-- C5: `fuzzyMatch(search, text)` is true iff the search has no non-whitespace
character, or the lowercased search is a subsequence of the lowercased text;
`findMatchingIndices` always yields a strictly increasing index list, and for a
non-blank search the match succeeds iff that list has the full length of the
lowercased search. -/
theorem C5_fuzzy_subsequence (search text : String) :
    (fuzzyMatch search text = true ↔
      (search.data.all jsWhitespace = true
        ∨ (lowerStr search).data.Sublist (lowerStr text).data))
    ∧ (findMatchingIndices search text).Pairwise (· < ·)
    ∧ (search.data.all jsWhitespace = false →
        (fuzzyMatch search text = true ↔
          (findMatchingIndices search text).length = (lowerStr search).data.length)) := by
  by_cases hws : jsTrim search = ""
  · have hall : search.data.all jsWhitespace = true := (jsTrim_eq_empty_iff search).mp hws
    refine ⟨?_, ?_, ?_⟩
    · simp [fuzzyMatch, hws, hall]
    · simp [findMatchingIndices, hws]
    · intro hcon
      rw [hall] at hcon
      exact absurd hcon (by decide)
  · have hall : ¬ search.data.all jsWhitespace = true := fun h =>
      hws ((jsTrim_eq_empty_iff search).mpr h)
    refine ⟨?_, ?_, ?_⟩
    · rw [fuzzyMatch, if_neg hws]
      constructor
      · intro h
        exact Or.inr ((fuzzyCore_iff_sublist _ _).mp h)
      · intro h
        rcases h with h | h
        · exact absurd h hall
        · exact (fuzzyCore_iff_sublist _ _).mpr h
    · rw [findMatchingIndices, if_neg hws]
      exact fmGo_pairwise _ _ 0
    · intro _
      rw [fuzzyMatch, if_neg hws, findMatchingIndices, if_neg hws]
      exact (fmGo_length_iff _ _ 0).symm

/-- Closed-form witness for C5: a scattered subsequence matches and yields a
full-length strictly increasing index list. -/
theorem C5_fuzzy_subsequence_witness :
    fuzzyMatch "lov" "Lovforslag" = true
    ∧ (findMatchingIndices "lov" "Lovforslag").length = 3 := by
  have h := C5_fuzzy_subsequence "lov" "Lovforslag"
  have h1 : fuzzyMatch "lov" "Lovforslag" = true := h.1.mpr (Or.inr (by decide))
  exact ⟨h1, ((h.2.2 (by decide)).mp h1).trans (by decide)⟩

/-- C6: `safePage` always lands in `[1, 5000]`: non-finite input and values
below 1 give 1, values above 5000 give 5000, any other finite value is rounded
down; the dashboard load effect queries with `limit` 10 and `offset`
`(page - 1) * 10`, and the next-page control is enabled only when the fetch
returned exactly 10 proposals. -/
theorem C6_page_clamping :
    (∀ v : Option String, 1 ≤ safePage v ∧ safePage v ≤ 5000)
    ∧ safePage none = 1
    ∧ (∀ s, jsStringToNumber s = .nan → safePage (some s) = 1)
    ∧ (∀ s, jsStringToNumber s = .posInf → safePage (some s) = 1)
    ∧ (∀ s, jsStringToNumber s = .negInf → safePage (some s) = 1)
    ∧ (∀ s q, jsStringToNumber s = .val q → q < 1 → safePage (some s) = 1)
    ∧ (∀ s q, jsStringToNumber s = .val q → q > 5000 → safePage (some s) = 5000)
    ∧ (∀ s q, jsStringToNumber s = .val q → 1 ≤ q → q ≤ 5000 → safePage (some s) = ⌊q⌋)
    ∧ (∀ page topicFilter qFilter, (dashboardQuery page topicFilter qFilter).lim = some 10
        ∧ (dashboardQuery page topicFilter qFilter).offset = some ((page - 1) * 10))
    ∧ (∀ (loading : Bool) (ps : List ProposalWithLabel),
        canNextPage loading ps = true → ps.length = 10 ∧ loading = false) := by
  have hval : ∀ (q : ℚ),
      (1 ≤ (if q < 1 then 1 else if q > 5000 then 5000 else ⌊q⌋ : Int))
      ∧ ((if q < 1 then 1 else if q > 5000 then 5000 else ⌊q⌋ : Int) ≤ 5000) := by
    intro q
    by_cases h1 : q < 1
    · simp [h1]
    · by_cases h2 : q > 5000
      · simp [h1, h2]
      · push_neg at h1 h2
        rw [if_neg (not_lt.mpr h1), if_neg (not_lt.mpr h2)]
        constructor
        · exact Int.le_floor.mpr (by exact_mod_cast h1)
        · calc ⌊q⌋ ≤ ⌊(5000 : ℚ)⌋ := Int.floor_le_floor h2
            _ = 5000 := by norm_num
  refine ⟨?_, rfl, ?_, ?_, ?_, ?_, ?_, ?_, ?_, ?_⟩
  · intro v
    match v with
    | none => exact ⟨by norm_num [safePage], by norm_num [safePage]⟩
    | some s =>
      show 1 ≤ safePage (some s) ∧ safePage (some s) ≤ 5000
      cases hn : jsStringToNumber s with
      | nan => simp [safePage, hn]
      | posInf => simp [safePage, hn]
      | negInf => simp [safePage, hn]
      | val q =>
        have := hval q
        simpa [safePage, hn] using this
  · intro s hn; simp [safePage, hn]
  · intro s hn; simp [safePage, hn]
  · intro s hn; simp [safePage, hn]
  · intro s q hn hq; simp [safePage, hn, hq]
  · intro s q hn hq
    have h1 : ¬ q < 1 := by linarith
    simp [safePage, hn, h1, hq]
  · intro s q hn h1 h2
    have h1' : ¬ q < 1 := not_lt.mpr h1
    have h2' : ¬ q > 5000 := not_lt.mpr h2
    simp [safePage, hn, h1', h2']
  · intro page topicFilter qFilter
    exact ⟨rfl, rfl⟩
  · intro loading ps h
    rw [canNextPage, Bool.and_eq_true] at h
    refine ⟨by simpa using h.2, by simpa using h.1⟩

/-- Closed-form witness for C6: a fractional page rounds down, garbage and an
oversized page clamp, and a full page of 10 results enables the next-page
control. -/
theorem C6_page_clamping_witness :
    safePage (some "3.7") = 3
    ∧ safePage (some "abc") = 1
    ∧ safePage (some "1e10") = 5000
    ∧ (canNextPage false (List.replicate 10 ⟨none, none⟩) = true →
        (List.replicate 10 (⟨none, none⟩ : ProposalWithLabel)).length = 10) := by
  have h := C6_page_clamping
  refine ⟨?_, ?_, ?_, ?_⟩
  · exact (h.2.2.2.2.2.2.2.1 "3.7" (mkRat 37 10) (by decide) (by decide) (by decide)).trans
      (by decide)
  · exact h.2.2.1 "abc" (by decide)
  · exact h.2.2.2.2.2.2.1 "1e10" (((10000000000 : Int) : ℚ)) (by decide) (by decide)
  · intro hc
    exact (h.2.2.2.2.2.2.2.2.2 false (List.replicate 10 ⟨none, none⟩) hc).1

theorem dropWhile_idem (p : Char → Bool) (l : List Char) :
    (l.dropWhile p).dropWhile p = l.dropWhile p := by
  induction l with
  | nil => rfl
  | cons a t ih =>
    by_cases h : p a = true
    · rw [List.dropWhile_cons_of_pos h]; exact ih
    · rw [List.dropWhile_cons_of_neg (by simp [h]),
        List.dropWhile_cons_of_neg (by simp [h])]

theorem jsTrimList_idem (l : List Char) :
    jsTrimList (jsTrimList l) = jsTrimList l := by
  set p := jsWhitespace
  set A := l.dropWhile p with hA
  set B := (A.reverse.dropWhile p).reverse with hB
  have hdwA : A.dropWhile p = A := by rw [hA]; exact dropWhile_idem p l
  have hrevB : B.reverse = A.reverse.dropWhile p := by rw [hB, List.reverse_reverse]
  have hdwRevB : B.reverse.dropWhile p = B.reverse := by
    rw [hrevB]; exact dropWhile_idem p A.reverse
  -- B is a prefix of A, so its head (if any) also fails p.
  have hpref : B <+: A := by
    rw [hB]
    have : A.reverse.dropWhile p <:+ A.reverse := List.dropWhile_suffix p
    have := List.reverse_prefix.mpr this
    simpa using this
  have hdwB : B.dropWhile p = B := by
    cases hBc : B with
    | nil => rfl
    | cons b bt =>
      obtain ⟨r, hr⟩ := hpref
      rw [hBc] at hr
      have hpb : p b = false := by
        have h1 : A.dropWhile p = A := hdwA
        rw [← hr] at h1
        simp only [List.cons_append] at h1
        by_cases hb : p b = true
        · rw [List.dropWhile_cons_of_pos hb] at h1
          have hlen := congrArg List.length h1
          simp only [List.length_cons] at hlen
          have hle := ((List.dropWhile_suffix p (l := bt ++ r)).sublist).length_le
          omega
        · simpa using hb
      rw [List.dropWhile_cons_of_neg (by simp [hpb])]
  show jsTrimList B = B
  rw [jsTrimList]
  show ((B.dropWhile p).reverse.dropWhile p).reverse = B
  rw [hdwB, hdwRevB, List.reverse_reverse]

theorem jsTrim_idem (s : String) : jsTrim (jsTrim s) = jsTrim s := by
  apply String.ext
  exact jsTrimList_idem s.data

theorem normalizeTag_jsTrim (s : String) :
    normalizeTag (jsTrim s) = normalizeTag s := by
  rw [normalizeTag, normalizeTag, jsTrim_idem]

theorem mergeTagsGo_mem (l : List String) (seen : List String) :
    ∀ x ∈ mergeTagsGo seen l, jsTrim x = x ∧ x ≠ "" ∧ normalizeTag x ∉ seen := by
  induction l generalizing seen with
  | nil => intro x hx; simp [mergeTagsGo] at hx
  | cons t rest ih =>
    intro x hx
    rw [mergeTagsGo] at hx
    by_cases hc : jsTrim t = ""
    · rw [if_pos hc] at hx
      exact ih seen x hx
    · rw [if_neg hc] at hx
      by_cases hk : normalizeTag (jsTrim t) ∈ seen
      · rw [if_pos hk] at hx
        exact ih seen x hx
      · rw [if_neg hk] at hx
        rcases List.mem_cons.mp hx with hx | hx
        · subst hx
          exact ⟨jsTrim_idem t, hc, by rw [normalizeTag_jsTrim]; rwa [normalizeTag_jsTrim] at hk⟩
        · have := ih (normalizeTag (jsTrim t) :: seen) x hx
          exact ⟨this.1, this.2.1, fun hmem => this.2.2 (List.mem_cons_of_mem _ hmem)⟩

theorem mergeTagsGo_nodup (l : List String) (seen : List String) :
    ((mergeTagsGo seen l).map normalizeTag).Nodup := by
  induction l generalizing seen with
  | nil => simp [mergeTagsGo]
  | cons t rest ih =>
    rw [mergeTagsGo]
    by_cases hc : jsTrim t = ""
    · rw [if_pos hc]; exact ih seen
    · rw [if_neg hc]
      by_cases hk : normalizeTag (jsTrim t) ∈ seen
      · rw [if_pos hk]; exact ih seen
      · rw [if_neg hk]
        rw [List.map_cons, List.nodup_cons]
        refine ⟨?_, ih _⟩
        intro hmem
        rcases List.mem_map.mp hmem with ⟨x, hx, hnx⟩
        have := (mergeTagsGo_mem rest (normalizeTag (jsTrim t) :: seen) x hx).2.2
        rw [hnx] at this
        exact this (List.mem_cons_self _ _)

theorem mergeTagsGo_eq_firstDedup (l : List String) (seen : List String) :
    mergeTagsGo seen l
      = firstDedupBy normalizeTag
          (((l.map jsTrim).filter (fun t => t ≠ "")).filter
            (fun t => normalizeTag t ∉ seen)) := by
  induction l generalizing seen with
  | nil => simp [mergeTagsGo, firstDedupBy]
  | cons t rest ih =>
    rw [mergeTagsGo]
    by_cases hc : jsTrim t = ""
    · rw [if_pos hc, List.map_cons, List.filter_cons_of_neg (by simp [hc])]
      exact ih seen
    · rw [if_neg hc, List.map_cons, List.filter_cons_of_pos (by simp [hc])]
      by_cases hk : normalizeTag (jsTrim t) ∈ seen
      · rw [if_pos hk, List.filter_cons_of_neg (by simp [hk])]
        exact ih seen
      · rw [if_neg hk, List.filter_cons_of_pos (by simp [hk]), firstDedupBy]
        congr 1
        rw [ih (normalizeTag (jsTrim t) :: seen)]
        congr 1
        simp only [List.filter_filter]
        apply List.filter_congr
        intro x _
        by_cases hA : normalizeTag x = normalizeTag (jsTrim t) <;>
          by_cases hB : normalizeTag x ∈ seen <;>
          simp [hA, hB]

theorem mergeTagsGo_eq_self (l : List String) (seen : List String)
    (h1 : ∀ t ∈ l, jsTrim t = t ∧ t ≠ "")
    (h2 : (l.map normalizeTag).Nodup)
    (h3 : ∀ t ∈ l, normalizeTag t ∉ seen) :
    mergeTagsGo seen l = l := by
  induction l generalizing seen with
  | nil => rfl
  | cons t rest ih =>
    have ht := h1 t (List.mem_cons_self _ _)
    rw [mergeTagsGo, ht.1, if_neg ht.2, if_neg (h3 t (List.mem_cons_self _ _))]
    congr 1
    rw [List.map_cons, List.nodup_cons] at h2
    apply ih
    · intro x hx; exact h1 x (List.mem_cons_of_mem _ hx)
    · exact h2.2
    · intro x hx
      intro hmem
      rcases List.mem_cons.mp hmem with hm | hm
      · exact h2.1 (hm ▸ List.mem_map_of_mem normalizeTag hx)
      · exact h3 x (List.mem_cons_of_mem _ hx) hm

/-- C7: every merged tag is non-empty and trimmed; normalized keys are
pairwise distinct; the result keeps first occurrences in order of
`autoTags ++ llmTags` in their first-seen trimmed spelling (the
`firstDedupBy` characterization); and merging is idempotent. -/
theorem C7_tag_merging (a b : List String) :
    (∀ t ∈ mergeTags a b, jsTrim t = t ∧ t ≠ "")
    ∧ ((mergeTags a b).map normalizeTag).Nodup
    ∧ mergeTags a b
        = firstDedupBy normalizeTag (((a ++ b).map jsTrim).filter (fun t => t ≠ ""))
    ∧ mergeTags (mergeTags a b) [] = mergeTags a b := by
  refine ⟨?_, ?_, ?_, ?_⟩
  · intro t ht
    have := mergeTagsGo_mem (a ++ b) [] t ht
    exact ⟨this.1, this.2.1⟩
  · exact mergeTagsGo_nodup (a ++ b) []
  · rw [mergeTags, mergeTagsGo_eq_firstDedup]
    congr 1
    have : ∀ x ∈ ((a ++ b).map jsTrim).filter (fun t => t ≠ ""),
        (decide (normalizeTag x ∉ ([] : List String))) = true := by
      intro x _; simp
    calc (((a ++ b).map jsTrim).filter (fun t => t ≠ "")).filter
          (fun t => normalizeTag t ∉ ([] : List String))
        = (((a ++ b).map jsTrim).filter (fun t => t ≠ "")).filter (fun _ => true) := by
          apply List.filter_congr
          intro x hx; simp
      _ = ((a ++ b).map jsTrim).filter (fun t => t ≠ "") := List.filter_true _
  · rw [mergeTags, List.append_nil]
    apply mergeTagsGo_eq_self
    · intro t ht
      have := mergeTagsGo_mem (a ++ b) [] t ht
      exact ⟨this.1, this.2.1⟩
    · exact mergeTagsGo_nodup (a ++ b) []
    · intro t _; simp

/-- Closed-form witness for C7: a tag surviving a merge of overlapping, padded
and blank inputs is indeed trimmed and non-empty. -/
theorem C7_tag_merging_witness :
    jsTrim "Tele" = "Tele" ∧ "Tele" ≠ "" :=
  (C7_tag_merging ["AI", " ai ", ""] ["Tele", "ai"]).1 "Tele" (by decide)

/-- C10: `sortTagsByFrequency` returns a permutation of its input (same strings
with the same multiplicities; the source sorts a `[...tags]` copy, leaving the
input array unchanged), and with the frequency argument omitted it returns the
input in its original order. -/
theorem C10_sort_tags_permutation (tags : List String) (frequency : Option TagFrequency) :
    (sortTagsByFrequency tags frequency).Perm tags
    ∧ sortTagsByFrequency tags none = tags := by
  constructor
  · match frequency with
    | none => exact List.Perm.refl tags
    | some freq => exact List.perm_insertionSort _ tags
  · rfl

/-- Closed-form witness for C10: a concrete sort instance is a permutation. -/
theorem C10_sort_tags_permutation_witness :
    (sortTagsByFrequency ["b", "a"] (some [("a", "a", 5)])).Perm ["b", "a"]
    ∧ sortTagsByFrequency ["b", "a"] none = ["b", "a"] :=
  ⟨(C10_sort_tags_permutation ["b", "a"] (some [("a", "a", 5)])).1,
   (C10_sort_tags_permutation ["b", "a"] none).2⟩

/-- Closed-form witness for C4: with a topic and limit set, `offset: 0` is
falsy and skipped, while `it_relevant=true`, the topic and the limit appear. -/
theorem C4_relevance_filter_witness :
    ("it_relevant", "true")
        ∈ getProposalsParams (some { topic := some "ai", lim := some 10, offset := some 0 })
    ∧ ("topic", "ai")
        ∈ getProposalsParams (some { topic := some "ai", lim := some 10, offset := some 0 })
    ∧ ("limit", "10")
        ∈ getProposalsParams (some { topic := some "ai", lim := some 10, offset := some 0 })
    ∧ ¬ ("offset", "0")
        ∈ getProposalsParams (some { topic := some "ai", lim := some 10, offset := some 0 }) := by
  have h := C4_relevance_filter (some { topic := some "ai", lim := some 10, offset := some 0 })
  refine ⟨h.1, ?_, ?_, ?_⟩
  · exact (h.2.1 "ai").mpr ⟨rfl, by decide⟩
  · exact (h.2.2.2.1 "10").mpr ⟨10, rfl, by decide, by decide⟩
  · intro hmem
    rcases (h.2.2.2.2 "0").mp hmem with ⟨n, hn, hne, -⟩
    have : n = 0 := by
      have := Option.some.inj hn
      omega
    exact hne this

theorem freqGet_freqBump (f : TagFrequency) (key lab k : String) :
    freqGet (freqBump f key lab) k =
      if k = key then some ((freqGet f key).elim (lab, 1) (fun e => (e.1, e.2 + 1)))
      else freqGet f k := by
  induction f with
  | nil =>
    by_cases h : k = key
    · subst h; simp [freqBump, freqGet]
    · have h' : ¬ key = k := fun he => h he.symm
      simp [freqBump, freqGet, h, h']
  | cons e rest ih =>
    obtain ⟨k1, l1, c1⟩ := e
    by_cases h1 : k1 = key
    · subst h1
      by_cases h2 : k1 = k
      · subst h2
        simp [freqBump, freqGet]
      · have h2' : ¬ k = k1 := fun he => h2 he.symm
        simp [freqBump, freqGet, h2, h2']
    · by_cases h2 : k1 = k
      · subst h2
        simp [freqBump, freqGet, h1, fun he : k1 = key => h1 he]
      · simp [freqBump, freqGet, h1, h2, ih]

theorem keyCount_freqBump (f : TagFrequency) (key lab k : String) :
    keyCount (freqBump f key lab) k = keyCount f k + (if k = key then 1 else 0) := by
  rw [keyCount, keyCount, freqGet_freqBump]
  by_cases h : k = key
  · subst h
    rw [if_pos rfl, if_pos rfl]
    cases hf : freqGet f k with
    | none => simp [hf]
    | some e => simp [hf]
  · simp [h]

theorem addProposalTags_cons (f : TagFrequency) (t : String) (rest : List String) :
    addProposalTags f (t :: rest)
      = addProposalTags
          (if normalizeTag t = "" then f else freqBump f (normalizeTag t) (jsTrim t)) rest := by
  rw [addProposalTags, List.foldl_cons]
  by_cases h : normalizeTag t = ""
  · rw [addProposalTags, if_pos h]
  · rw [addProposalTags, if_neg h]

theorem keyCount_addProposalTags (ts : List String) (f : TagFrequency) (k : String)
    (hne : ∀ t ∈ ts, normalizeTag t ≠ "")
    (hnd : (ts.map normalizeTag).Nodup) :
    keyCount (addProposalTags f ts) k
      = keyCount f k + (if k ∈ ts.map normalizeTag then 1 else 0) := by
  induction ts generalizing f with
  | nil => simp [addProposalTags]
  | cons t rest ih =>
    rw [addProposalTags_cons, if_neg (hne t (List.mem_cons_self _ _))]
    rw [List.map_cons, List.nodup_cons] at hnd
    by_cases hk : k = normalizeTag t
    · have hnotin : k ∉ rest.map normalizeTag := hk ▸ hnd.1
      rw [ih _ (fun x hx => hne x (List.mem_cons_of_mem _ hx)) hnd.2,
        keyCount_freqBump, if_pos hk, if_neg hnotin, List.map_cons,
        if_pos (List.mem_cons.mpr (Or.inl hk))]
    · rw [ih _ (fun x hx => hne x (List.mem_cons_of_mem _ hx)) hnd.2,
        keyCount_freqBump, if_neg hk, List.map_cons]
      by_cases hm : k ∈ rest.map normalizeTag
      · rw [if_pos hm, if_pos (List.mem_cons.mpr (Or.inr hm))]
      · rw [if_neg hm, if_neg (by
          intro hc
          rcases List.mem_cons.mp hc with h | h
          · exact hk h
          · exact hm h)]

theorem freqGet_addProposalTags_stable (ts : List String) (f : TagFrequency)
    (k lab : String) (c : Nat) (h : freqGet f k = some (lab, c)) :
    ∃ c', freqGet (addProposalTags f ts) k = some (lab, c') := by
  induction ts generalizing f c with
  | nil => exact ⟨c, h⟩
  | cons t rest ih =>
    rw [addProposalTags_cons]
    by_cases h0 : normalizeTag t = ""
    · rw [if_pos h0]; exact ih f c h
    · rw [if_neg h0]
      have hb := freqGet_freqBump f (normalizeTag t) (jsTrim t) k
      by_cases hk : k = normalizeTag t
      · rw [if_pos hk, ← hk, h] at hb
        exact ih _ (c + 1) (by rw [← hk, hb]; rfl)
      · rw [if_neg hk] at hb
        exact ih _ c (by rw [hb, h])

theorem freqGet_addProposalTags_fresh (ts : List String) (f : TagFrequency)
    (k : String) (hk : k ≠ "") (h0 : freqGet f k = none) :
    (freqGet (addProposalTags f ts) k = none
        ∧ ts.find? (fun t => normalizeTag t == k) = none)
    ∨ (∃ t, ts.find? (fun t => normalizeTag t == k) = some t
        ∧ ∃ c, freqGet (addProposalTags f ts) k = some (jsTrim t, c)) := by
  induction ts generalizing f with
  | nil => left; exact ⟨h0, rfl⟩
  | cons t rest ih =>
    rw [addProposalTags_cons]
    by_cases hnt : normalizeTag t = k
    · right
      have hne : normalizeTag t ≠ "" := by rw [hnt]; exact hk
      rw [if_neg hne]
      refine ⟨t, ?_, ?_⟩
      · exact List.find?_cons_of_pos _ (by simp [hnt])
      · have hb := freqGet_freqBump f (normalizeTag t) (jsTrim t) k
        rw [if_pos hnt.symm, hnt, h0] at hb
        exact freqGet_addProposalTags_stable rest _ k (jsTrim t) 1 (by rw [hnt, hb]; rfl)
    · have hfind : List.find? (fun t => normalizeTag t == k) (t :: rest)
          = List.find? (fun t => normalizeTag t == k) rest :=
        List.find?_cons_of_neg _ (by simp [hnt])
      by_cases hne : normalizeTag t = ""
      · rw [if_pos hne, hfind]
        exact ih f h0
      · rw [if_neg hne, hfind]
        have hb := freqGet_freqBump f (normalizeTag t) (jsTrim t) k
        rw [if_neg (fun he => hnt he.symm), h0] at hb
        exact ih _ hb

theorem addProposalTags_append (f : TagFrequency) (a b : List String) :
    addProposalTags f (a ++ b) = addProposalTags (addProposalTags f a) b := by
  rw [addProposalTags, addProposalTags, addProposalTags, List.foldl_append]

theorem buildTagFrequency_foldl_eq (ps : List ProposalWithLabel) (f : TagFrequency) :
    ps.foldl (fun f p => addProposalTags f (getMergedProposalTags p)) f
      = addProposalTags f (ps.flatMap getMergedProposalTags) := by
  induction ps generalizing f with
  | nil => rfl
  | cons p rest ih =>
    rw [List.foldl_cons, ih, List.flatMap_cons, addProposalTags_append]

theorem buildTagFrequency_eq (ps : List ProposalWithLabel) :
    buildTagFrequency ps = addProposalTags [] (ps.flatMap getMergedProposalTags) :=
  buildTagFrequency_foldl_eq ps []

theorem lowerStr_ne_empty (s : String) (h : s ≠ "") : lowerStr s ≠ "" := by
  intro hc
  apply h
  apply String.ext
  have := congrArg String.data hc
  simp only [lowerStr] at this
  have : s.data.map Char.toLower = [] := this
  simpa using List.map_eq_nil_iff.mp this

theorem merged_key_ne_empty (p : ProposalWithLabel) :
    ∀ t ∈ getMergedProposalTags p, normalizeTag t ≠ "" := by
  intro t ht
  have hm := mergeTagsGo_mem _ [] t ht
  rw [normalizeTag, hm.1]
  exact lowerStr_ne_empty t hm.2.1

theorem localeCmp_le_iff (a b : String) : localeCmp a b ≤ 0 ↔ a ≤ b := by
  rw [localeCmp]
  by_cases h1 : a < b
  · simp [h1, le_of_lt h1]
  · rw [if_neg h1]
    by_cases h2 : b < a
    · rw [if_pos h2]
      simp [not_le.mpr h2]
    · rw [if_neg h2]
      simp [le_of_not_lt h2]

theorem infoComparator_le_iff (a b : String × Nat) :
    infoComparator a b ≤ 0 ↔ (b.2 < a.2 ∨ (b.2 = a.2 ∧ a.1 ≤ b.1)) := by
  rw [infoComparator]
  by_cases h : ((b.2 : Int) - a.2) ≠ 0
  · rw [if_pos h]
    constructor
    · intro hle
      left; omega
    · intro hc
      rcases hc with hc | hc
      · omega
      · omega
  · rw [if_neg h]
    push_neg at h
    have heq : b.2 = a.2 := by omega
    rw [localeCmp_le_iff]
    constructor
    · intro hle; exact Or.inr ⟨heq, hle⟩
    · intro hc
      rcases hc with hc | hc
      · omega
      · exact hc.2

theorem infoRel_total : ∀ a b : String × Nat,
    infoComparator a b ≤ 0 ∨ infoComparator b a ≤ 0 := by
  intro a b
  rw [infoComparator_le_iff, infoComparator_le_iff]
  rcases Nat.lt_trichotomy a.2 b.2 with h | h | h
  · right; left; exact h
  · rcases le_total a.1 b.1 with hs | hs
    · left; right; exact ⟨h.symm, hs⟩
    · right; right; exact ⟨h, hs⟩
  · left; left; exact h

theorem infoRel_trans : ∀ a b c : String × Nat,
    infoComparator a b ≤ 0 → infoComparator b c ≤ 0 → infoComparator a c ≤ 0 := by
  intro a b c hab hbc
  rw [infoComparator_le_iff] at hab hbc ⊢
  rcases hab with h1 | ⟨h1, h1'⟩
  · rcases hbc with h2 | ⟨h2, h2'⟩
    · left; omega
    · left; omega
  · rcases hbc with h2 | ⟨h2, h2'⟩
    · left; omega
    · right; exact ⟨by omega, le_trans h1' h2'⟩

/-- C8: the count stored for a key equals the number of proposals whose merged
tag list contains a tag with that key (each proposal contributes at most one,
its merged tags being key-deduplicated); the stored label is the trimmed
first-encountered spelling across the traversal; and `topTagsWithCounts`
returns at most `limit` entries with counts in non-increasing order. -/
theorem C8_tag_aggregation (ps : List ProposalWithLabel) (k : String)
    (freq : TagFrequency) (lim : Nat) :
    keyCount (buildTagFrequency ps) k
      = ps.countP (fun p => k ∈ (getMergedProposalTags p).map normalizeTag)
    ∧ (k ≠ "" → ∀ lab c, freqGet (buildTagFrequency ps) k = some (lab, c) →
        ∃ t, (ps.flatMap getMergedProposalTags).find? (fun t => normalizeTag t == k) = some t
          ∧ lab = jsTrim t)
    ∧ (topTagsWithCounts freq lim).length ≤ lim
    ∧ (topTagsWithCounts freq lim).Pairwise (fun a b => b.2 ≤ a.2) := by
  refine ⟨?_, ?_, ?_, ?_⟩
  · have aux : ∀ (l : List ProposalWithLabel) (f : TagFrequency),
        keyCount (l.foldl (fun f p => addProposalTags f (getMergedProposalTags p)) f) k
          = keyCount f k
            + l.countP (fun p => k ∈ (getMergedProposalTags p).map normalizeTag) := by
      intro l
      induction l with
      | nil => intro f; simp
      | cons p rest ih =>
        intro f
        rw [List.foldl_cons, ih, List.countP_cons,
          keyCount_addProposalTags _ _ _ (merged_key_ne_empty p) (mergeTagsGo_nodup _ _)]
        by_cases hm : k ∈ (getMergedProposalTags p).map normalizeTag
        · simp [hm]; omega
        · simp [hm]
    rw [buildTagFrequency] at *
    rw [aux ps []]
    simp [keyCount, freqGet]
  · intro hk lab c hsome
    rw [buildTagFrequency_eq] at hsome
    rcases freqGet_addProposalTags_fresh (ps.flatMap getMergedProposalTags) [] k hk rfl with
      h | ⟨t, hfind, c', hval⟩
    · rw [h.1] at hsome; exact absurd hsome (by simp)
    · refine ⟨t, hfind, ?_⟩
      rw [hval] at hsome
      exact (Prod.mk.injEq _ _ _ _ ▸ (Option.some.inj hsome)).1.symm
  · exact List.length_take_le _ _
  · have hinst1 : IsTotal (String × Nat) (fun a b => infoComparator a b ≤ 0) :=
      ⟨infoRel_total⟩
    have hinst2 : IsTrans (String × Nat) (fun a b => infoComparator a b ≤ 0) :=
      ⟨infoRel_trans⟩
    have hs := @List.sorted_insertionSort (String × Nat)
      (fun a b => infoComparator a b ≤ 0) (fun a b => inferInstance) hinst1 hinst2
      (freq.map (fun e => (e.2.1, e.2.2)))
    have hp : (topTagsWithCounts freq lim).Pairwise (fun a b => infoComparator a b ≤ 0) := by
      rw [topTagsWithCounts]
      exact List.Pairwise.sublist (List.take_sublist _ _) hs
    exact hp.imp (fun hab => ((infoComparator_le_iff _ _).mp hab).elim le_of_lt (fun h => le_of_eq h.1))

/-- Closed-form witness for C8: two proposals sharing the key `ai` in different
spellings count twice under the first-seen label. -/
theorem C8_tag_aggregation_witness :
    keyCount
        (buildTagFrequency
          [⟨some ⟨["AI"]⟩, none⟩, ⟨some ⟨[" ai ", "Tele"]⟩, none⟩]) "ai"
      = 2
    ∧ (topTagsWithCounts [("ai", "AI", 2), ("tele", "Tele", 1)] 1).length ≤ 1 := by
  constructor
  · have h := (C8_tag_aggregation
      [⟨some ⟨["AI"]⟩, none⟩, ⟨some ⟨[" ai ", "Tele"]⟩, none⟩] "ai" [] 0).1
    rw [h]
    decide
  · exact (C8_tag_aggregation [] "" [("ai", "AI", 2), ("tele", "Tele", 1)] 1).2.2.1

/-- C9: `decodeJwtPayload` is total (any thrown error is caught): it returns
`none` unless the token has exactly three `.`-separated parts whose middle
part base64url-decodes to parseable JSON of object type — JSON objects and
arrays are returned as records, while `null`, booleans, numbers and strings
yield `none`. -/
theorem C9_total_jwt_decoding (token : String) :
    ((jsSplit token '.').length ≠ 3 → decodeJwtPayload token = none)
    ∧ (∀ payload, (jsSplit token '.').length = 3 →
        (jsSplit token '.')[1]? = some payload →
        ((jwtSegmentToJson payload = none → decodeJwtPayload token = none)
          ∧ (jwtSegmentToJson payload = some .null → decodeJwtPayload token = none)
          ∧ (∀ b, jwtSegmentToJson payload = some (.bool b) → decodeJwtPayload token = none)
          ∧ (∀ q, jwtSegmentToJson payload = some (.num q) → decodeJwtPayload token = none)
          ∧ (∀ s, jwtSegmentToJson payload = some (.str s) → decodeJwtPayload token = none)
          ∧ (∀ elems, jwtSegmentToJson payload = some (.arr elems) →
              decodeJwtPayload token = some (.arr elems))
          ∧ (∀ fields, jwtSegmentToJson payload = some (.obj fields) →
              decodeJwtPayload token = some (.obj fields))))
    ∧ (∀ j, decodeJwtPayload token = some j →
        (∃ fields, j = .obj fields) ∨ (∃ elems, j = .arr elems)) := by
  refine ⟨?_, ?_, ?_⟩
  · intro h
    simp [decodeJwtPayload, h]
  · intro payload hl hp
    refine ⟨?_, ?_, ?_, ?_, ?_, ?_, ?_⟩ <;>
      first
        | (intro hseg; simp [decodeJwtPayload, hl, hp, hseg])
        | (intro x hseg; simp [decodeJwtPayload, hl, hp, hseg])
  · intro j hj
    rw [decodeJwtPayload] at hj
    by_cases hl : (jsSplit token '.').length ≠ 3
    · rw [if_pos hl] at hj; simp at hj
    · rw [if_neg hl] at hj
      cases hp : (jsSplit token '.')[1]? with
      | none => rw [hp] at hj; simp at hj
      | some payload =>
        rw [hp] at hj
        dsimp only at hj
        cases hseg : jwtSegmentToJson payload with
        | none => rw [hseg] at hj; simp at hj
        | some jj =>
          rw [hseg] at hj
          cases jj with
          | obj fields => left; exact ⟨fields, (Option.some.inj hj).symm⟩
          | arr elems => right; exact ⟨elems, (Option.some.inj hj).symm⟩
          | null => simp at hj
          | bool b => simp at hj
          | num q => simp at hj
          | str s => simp at hj

/-- Closed-form witness for C9: a one-part token and a numeric payload decode
to `null`, while an array payload is returned as a record. -/
theorem C9_total_jwt_decoding_witness :
    decodeJwtPayload "nodots" = none
    ∧ decodeJwtPayload "h.MQ.s" = none
    ∧ decodeJwtPayload "h.W10.s" = some (.arr []) := by
  refine ⟨?_, ?_, ?_⟩
  · exact (C9_total_jwt_decoding "nodots").1 (by decide)
  · exact ((C9_total_jwt_decoding "h.MQ.s").2.1 "MQ" (by decide) (by decide)).2.2.2.1 1 rfl
  · exact ((C9_total_jwt_decoding "h.W10.s").2.1 "W10" (by decide) (by decide)).2.2.2.2.2.1 [] rfl

theorem getJwtExpSeconds_eq_some_iff (token : String) (q : ℚ) :
    getJwtExpSeconds token = some q ↔
      ∃ payload fields,
        (jsSplit token '.').length = 3
        ∧ (jsSplit token '.')[1]? = some payload
        ∧ jwtSegmentToJson payload = some (.obj fields)
        ∧ jsGet (.obj fields) "exp" = some (.num q) := by
  constructor
  · intro h
    rw [getJwtExpSeconds] at h
    cases hd : decodeJwtPayload token with
    | none => rw [hd] at h; simp at h
    | some p =>
      rw [hd] at h
      dsimp only at h
      rw [decodeJwtPayload] at hd
      by_cases hl : (jsSplit token '.').length ≠ 3
      · rw [if_pos hl] at hd; simp at hd
      · rw [if_neg hl] at hd
        push_neg at hl
        cases hp : (jsSplit token '.')[1]? with
        | none => rw [hp] at hd; simp at hd
        | some payload =>
          rw [hp] at hd
          dsimp only at hd
          cases hseg : jwtSegmentToJson payload with
          | none => rw [hseg] at hd; simp at hd
          | some jj =>
            rw [hseg] at hd
            cases jj with
            | obj fields =>
              refine ⟨payload, fields, hl, rfl, hseg, ?_⟩
              have hpeq : p = Json.obj fields := by
                simpa using hd.symm
              rw [hpeq] at h
              cases hg : jsGet (Json.obj fields) "exp" with
              | none => rw [hg] at h; simp at h
              | some jv =>
                rw [hg] at h
                cases jv with
                | num qq =>
                  dsimp only at h
                  have hqq : qq = q := by simpa using h
                  rw [hqq]
                | null => simp at h
                | bool b => simp at h
                | str s => simp at h
                | arr xs => simp at h
                | obj kv => simp at h
            | arr elems =>
              have hpeq : p = Json.arr elems := by simpa using hd.symm
              rw [hpeq] at h
              simp [jsGet] at h
            | null => simp at hd
            | bool b => simp at hd
            | num qq => simp at hd
            | str s => simp at hd
  · rintro ⟨payload, fields, hl, hp, hseg, hg⟩
    rw [getJwtExpSeconds, decodeJwtPayload, if_neg (by rw [hl]; exact fun h => h rfl), hp]
    dsimp only
    rw [hseg]
    dsimp only
    rw [hg]

/-- C2: `isJwtValidNow(token, opts)` is true exactly when the token has three
parts whose middle part decodes to a JSON object whose `exp` field is a number
strictly greater than the current Unix time plus the skew (default 30); with
the source's `!exp` truthiness check, an `exp` of exactly 0 is also rejected,
as are malformed tokens and missing or non-numeric `exp` values. -/
theorem C2_jwt_validity (token : String) (opts : Option JwtOpts) (now : Int) :
    (isJwtValidNow token opts now = true ↔
      (∃ payload fields q,
        (jsSplit token '.').length = 3
        ∧ (jsSplit token '.')[1]? = some payload
        ∧ jwtSegmentToJson payload = some (.obj fields)
        ∧ jsGet (.obj fields) "exp" = some (.num q)
        ∧ q ≠ 0
        ∧ q > ((now + (opts.bind (·.skewSeconds)).getD 30 : Int) : ℚ)))
    ∧ ((jsSplit token '.').length ≠ 3 → isJwtValidNow token opts now = false)
    ∧ (getJwtExpSeconds token = none → isJwtValidNow token opts now = false)
    ∧ (getJwtExpSeconds token = some 0 → isJwtValidNow token opts now = false) := by
  have hval : ∀ q : ℚ, getJwtExpSeconds token = some q →
      (isJwtValidNow token opts now
        = if q = 0 then false
          else decide (q > ((now + (opts.bind (·.skewSeconds)).getD 30 : Int) : ℚ))) := by
    intro q hq
    rw [isJwtValidNow, hq]
  refine ⟨?_, ?_, ?_, ?_⟩
  · constructor
    · intro h
      cases hq : getJwtExpSeconds token with
      | none => rw [isJwtValidNow, hq] at h; simp at h
      | some q =>
        rw [hval q hq] at h
        by_cases h0 : q = 0
        · rw [if_pos h0] at h; simp at h
        · rw [if_neg h0] at h
          rcases (getJwtExpSeconds_eq_some_iff token q).mp hq with ⟨payload, fields, hl, hp, hseg, hg⟩
          exact ⟨payload, fields, q, hl, hp, hseg, hg, h0, of_decide_eq_true h⟩
    · rintro ⟨payload, fields, q, hl, hp, hseg, hg, h0, hgt⟩
      have hq : getJwtExpSeconds token = some q :=
        (getJwtExpSeconds_eq_some_iff token q).mpr ⟨payload, fields, hl, hp, hseg, hg⟩
      rw [hval q hq, if_neg h0]
      exact decide_eq_true hgt
  · intro hl
    cases hq : getJwtExpSeconds token with
    | none => rw [isJwtValidNow, hq]
    | some q =>
      rcases (getJwtExpSeconds_eq_some_iff token q).mp hq with ⟨payload, fields, hl', -⟩
      exact absurd hl' hl
  · intro hq; rw [isJwtValidNow, hq]
  · intro hq
    rw [hval 0 hq, if_pos rfl]

/-- Closed-form witness for C2: a token whose payload is
`{"exp":99,"email":"A@B.c"}` is valid at time 0 (99 > 0 + 30), and a token
with `exp: 0` is rejected even at a time that would satisfy the comparison. -/
theorem C2_jwt_validity_witness :
    isJwtValidNow "h.eyJleHAiOjk5LCJlbWFpbCI6IkFAQi5jIn0.s" none 0 = true
    ∧ isJwtValidNow "h.eyJleHAiOjB9.s" none (-100) = false := by
  constructor
  · exact (C2_jwt_validity "h.eyJleHAiOjk5LCJlbWFpbCI6IkFAQi5jIn0.s" none 0).1.mpr
      ⟨"eyJleHAiOjk5LCJlbWFpbCI6IkFAQi5jIn0",
        [("exp", .num 99), ("email", .str "A@B.c")], 99,
        by decide, by decide, rfl, rfl, by decide, by decide⟩
  · exact (C2_jwt_validity "h.eyJleHAiOjB9.s" none (-100)).2.2.2 (by decide)

/-- C1: `isAdminAuthed` accepts only a cookie holding a token valid per
`isJwtValidNow`; with a configured `ADMIN_EMAILS` allowlist it additionally
requires the token's lowercased email claim to be on the (trimmed, lowercased)
list, and rejects a valid token without a string email claim; with no
configured allowlist every holder of a valid token is an admin. -/
theorem C1_admin_gating (cookie : Option String) (env : String) (now : Int) :
    (isAdminAuthed cookie env now = true →
      ∃ t, cookie = some t ∧ isJwtValidNow t none now = true)
    ∧ (∀ allow, parseAdminEmails env = some allow →
        isAdminAuthed cookie env now = true →
        ∃ t, cookie = some t ∧ lowerStr ((getJwtEmail t).getD "") ∈ allow)
    ∧ (parseAdminEmails env = none →
        ∀ t, cookie = some t → isJwtValidNow t none now = true →
        isAdminAuthed cookie env now = true)
    ∧ (∀ allow t, parseAdminEmails env = some allow → cookie = some t →
        getJwtEmail t = none → isAdminAuthed cookie env now = false) := by
  refine ⟨?_, ?_, ?_, ?_⟩
  · intro h
    match cookie with
    | none => simp [isAdminAuthed] at h
    | some t =>
      refine ⟨t, rfl, ?_⟩
      rw [isAdminAuthed] at h
      by_cases h0 : t = ""
      · rw [if_pos h0] at h; simp at h
      · rw [if_neg h0] at h
        by_cases h1 : isJwtValidNow t none now = true
        · exact h1
        · rw [Bool.not_eq_true] at h1
          rw [h1] at h
          simp at h
  · intro allow hallow h
    match cookie with
    | none => simp [isAdminAuthed] at h
    | some t =>
      refine ⟨t, rfl, ?_⟩
      rw [isAdminAuthed] at h
      by_cases h0 : t = ""
      · rw [if_pos h0] at h; simp at h
      · rw [if_neg h0] at h
        by_cases h1 : isJwtValidNow t none now = true
        · rw [h1] at h
          simp only [Bool.not_true, if_false] at h
          rw [hallow] at h
          dsimp only at h
          by_cases h2 : lowerStr ((getJwtEmail t).getD "") = ""
          · rw [if_pos h2] at h; simp at h
          · rw [if_neg h2] at h
            exact of_decide_eq_true h
        · rw [Bool.not_eq_true] at h1
          rw [h1] at h
          simp at h
  · intro hnone t hc hvalid
    subst hc
    have hne : t ≠ "" := by
      intro he
      rw [he] at hvalid
      have : isJwtValidNow "" none now = false := rfl
      rw [hvalid] at this
      exact absurd this (by decide)
    rw [isAdminAuthed, if_neg hne, hvalid]
    simp only [Bool.not_true, if_false]
    rw [hnone]
    rfl
  · intro allow t hallow hc hemail
    subst hc
    rw [isAdminAuthed]
    by_cases h0 : t = ""
    · rw [if_pos h0]
    · rw [if_neg h0]
      by_cases h1 : isJwtValidNow t none now = true
      · rw [h1]
        simp only [Bool.not_true, if_false]
        rw [hallow]
        dsimp only
        rw [hemail]
        rfl
      · rw [Bool.not_eq_true] at h1
        rw [h1]
        rfl

/-- Closed-form witness for C1: with no allowlist any valid-token holder is an
admin; with an allowlist, a valid token without an email claim is rejected. -/
theorem C1_admin_gating_witness :
    isAdminAuthed (some "h.eyJleHAiOjk5LCJlbWFpbCI6IkFAQi5jIn0.s") "" 0 = true
    ∧ isAdminAuthed (some "h.eyJleHAiOjk5fQ.s") "a@b.c" 0 = false :=
  ⟨(C1_admin_gating (some "h.eyJleHAiOjk5LCJlbWFpbCI6IkFAQi5jIn0.s") "" 0).2.2.1
      rfl "h.eyJleHAiOjk5LCJlbWFpbCI6IkFAQi5jIn0.s" rfl (by decide),
   (C1_admin_gating (some "h.eyJleHAiOjk5fQ.s") "a@b.c" 0).2.2.2
      ["a@b.c"] "h.eyJleHAiOjk5fQ.s" (by decide) rfl (by decide)⟩
